import Mathlib

/-!
A verification development for the timetrax time-accounting engine.

Timestamps are modelled as integers (seconds, with the local-time offset
already folded in), calendar dates as integers (days since 1970-01-01),
and chrono Durations as integers (seconds).  The SQLite tables of the
store are modelled as association lists; string values of the key/value
table are kept as Lean strings and parsed with an explicit integer
parser that mirrors the standard library parse used by the source.

The shutdown timestamp stored under the key "shutdown" is kept in a
dedicated field of the state (as an integer instant) because every read
and write of that key treats it as a timestamp.
-/

namespace Timetrax

/-- Errors of the persistence layer (rusqlite), restricted to the two
failure shapes the modelled operations can produce. -/
inductive DbError where
  | constraintViolation
  | queryReturnedNoRows
  deriving Repr, DecidableEq

/-- The error type of the accounting engine (business_logic::Error):
an inconsistent day tagged with its date, an unparseable stored numeric
value, or a wrapped store error. -/
inductive Error where
  | Inconsistent (d : Int) : Error
  | InvalidValue : Error
  | DbError (e : DbError) : Error
  deriving Repr, DecidableEq

/-- Local calendar date of a timestamp in seconds: floor division by
86400, modelling date(ts, localtime) / DateTime::date_naive with the
local offset folded into the timestamp. -/
def dateNaive (t : Int) : Int := Int.fdiv t 86400

/-- True when the date falls on Saturday or Sunday.  Day 0 is
1970-01-01, a Thursday; weekdays are numbered from Monday = 0, so
Saturday is 5 and Sunday is 6. -/
def isWeekend (d : Int) : Bool :=
  (Int.emod (d + 3) 7 == 5) || (Int.emod (d + 3) 7 == 6)

/-- Digit-string accumulator for the integer parser. -/
def parseDigits : List Char → Nat → Option Nat
  | [], acc => some acc
  | c :: rest, acc =>
      if c.isDigit then parseDigits rest (acc * 10 + (c.toNat - 48)) else none

/-- Signed decimal integer parser: an optional sign followed by at least
one digit, as accepted by the standard library FromStr for integers
(bounds are applied by the width-specific wrappers below). -/
def parseIntSigned (s : String) : Option Int :=
  match s.toList with
  | [] => none
  | '+' :: rest =>
      match rest with
      | [] => none
      | _ => (parseDigits rest 0).map (fun n => (n : Int))
  | '-' :: rest =>
      match rest with
      | [] => none
      | _ => (parseDigits rest 0).map (fun n => -(n : Int))
  | cs => (parseDigits cs 0).map (fun n => (n : Int))

/-- Parse of a stored string as an i64, rejecting out-of-range values. -/
def parseI64 (s : String) : Option Int :=
  (parseIntSigned s).bind (fun n =>
    if -(2 ^ 63) ≤ n ∧ n < 2 ^ 63 then some n else none)

/-- Parse of a stored string as an i32 (the integer-literal fallback
type inferred for the parse in fix_missing_expected), rejecting
out-of-range values. -/
def parseI32 (s : String) : Option Int :=
  (parseIntSigned s).bind (fun n =>
    if -(2 ^ 31) ≤ n ∧ n < 2 ^ 31 then some n else none)

/-- Lookup in an integer-keyed association list (a table row keyed by a
unique integer column). -/
def lookupA : List (Int × Int) → Int → Option Int
  | [], _ => none
  | (k, v) :: rest, key => if key = k then some v else lookupA rest key

/-- Upsert in an integer-keyed association list: replace the value in
place when the key is present, append a fresh row otherwise. -/
def setA : List (Int × Int) → Int → Int → List (Int × Int)
  | [], k, v => [(k, v)]
  | (k0, v0) :: rest, k, v =>
      if k = k0 then (k0, v) :: rest else (k0, v0) :: setA rest k v

/-- Lookup in the string-keyed key/value table. -/
def lookupS : List (String × String) → String → Option String
  | [], _ => none
  | (k, v) :: rest, key => if key = k then some v else lookupS rest key

/-- The durable state of the store plus its collaborators: the four
tables (work items by name, the session-event log keyed by unique start
timestamp, the expected-time ledger keyed by date, the string key/value
table), the shutdown instant stored under the key "shutdown", the
external holiday predicate, and the instant supplied by the clock
provider. -/
structure DbState where
  workItems : List String
  workTimes : List (Int × Option Nat)
  expected : List (Int × Int)
  kv : List (String × String)
  kvShutdown : Option Int
  isHoliday : Int → Bool
  now : Int

/-- Last element of a list, modelling slice::last. -/
def lastO : List α → Option α
  | [] => none
  | [a] => some a
  | _ :: rest => lastO rest

@[simp] theorem lastO_nil : lastO ([] : List α) = none := rfl

@[simp] theorem lastO_singleton (a : α) : lastO [a] = some a := rfl

@[simp] theorem lastO_cons_cons (a b : α) (l : List α) :
    lastO (a :: b :: l) = lastO (b :: l) := rfl

theorem lastO_eq_none {l : List α} (h : lastO l = none) : l = [] := by
  induction l with
  | nil => rfl
  | cons x rest ih =>
      cases rest with
      | nil => simp at h
      | cons y r2 =>
          rw [lastO_cons_cons] at h
          exact (List.cons_ne_nil y r2 (ih h)).elim

theorem lastO_mem {l : List α} {a : α} (h : lastO l = some a) : a ∈ l := by
  induction l with
  | nil => simp at h
  | cons x rest ih =>
      cases rest with
      | nil => simp at h; simp [h]
      | cons y rest2 =>
          rw [lastO_cons_cons] at h
          exact List.mem_cons_of_mem x (ih h)

/-- Sum of the duration contributions of consecutive event pairs: a pair
whose first element carries a work item contributes the difference of
the two timestamps, a pair opened by a stop marker contributes nothing.
This is the windows(2) loop of work_times_to_duration. -/
def windowsSum : List (Option Nat × Int) → Int
  | a :: b :: rest =>
      (if a.1.isSome then b.2 - a.2 else 0) + windowsSum (b :: rest)
  | _ => 0

@[simp] theorem windowsSum_nil : windowsSum [] = 0 := rfl

@[simp] theorem windowsSum_singleton (a : Option Nat × Int) :
    windowsSum [a] = 0 := rfl

@[simp] theorem windowsSum_cons_cons (a b : Option Nat × Int)
    (l : List (Option Nat × Int)) :
    windowsSum (a :: b :: l) =
      (if a.1.isSome then b.2 - a.2 else 0) + windowsSum (b :: l) := rfl

/-- business_logic::work_times_to_duration: the session-list duration
reduction.  The list holds (work_item, start) pairs for one calendar
day in ascending start order; an empty list yields a zero duration, a
trailing event that still carries a work item is the inconsistent-day
error tagged with the date of that event, and otherwise the pairwise
window sum is returned. -/
def work_times_to_duration (times : List (Option Nat × Int)) :
    Except Error Int :=
  match lastO times with
  | none => Except.ok 0
  | some last =>
      if last.1.isSome then
        Except.error (Error.Inconsistent (dateNaive last.2))
      else
        Except.ok (windowsSum times)

/-- True when the sequence is empty or its final event is a stop marker
(null work item): the legal terminal states of a closed day. -/
def endsInStop (l : List (Option Nat × Int)) : Bool :=
  match lastO l with
  | none => true
  | some p => p.1.isNone

/-- Modelled from the spec: the state-machine reading of one day.  The
accumulator carries the start instant of the currently open maximal
Working interval, if one is open; the first stop marker closes it and
adds its span.  Nothing in the source computes this directly; it is the
"total of maximal Working intervals" the spec describes, used as the
comparison point for the duration reduction. -/
def intervalSumAux : Option Int → List (Option Nat × Int) → Int
  | _, [] => 0
  | none, (none, _) :: rest => intervalSumAux none rest
  | none, (some _, t) :: rest => intervalSumAux (some t) rest
  | some s, (none, t) :: rest => (t - s) + intervalSumAux none rest
  | some s, (some _, _) :: rest => intervalSumAux (some s) rest

/-- Modelled from the spec: total length of the maximal Working
intervals of a day, read off the event list by the two-state machine. -/
def maximalIntervalSum (l : List (Option Nat × Int)) : Int :=
  intervalSumAux none l

/-- Span still owed by an open Working interval at the head of the
event list: the head timestamp minus the carried interval start. -/
def pendingSpan (acc : Option Int) (l : List (Option Nat × Int)) : Int :=
  match acc, l with
  | some s, (_, t) :: _ => t - s
  | _, _ => 0

theorem endsInStop_tail {x : Option Nat × Int} {tl : List (Option Nat × Int)}
    (h : endsInStop (x :: tl) = true) : endsInStop tl = true := by
  cases tl with
  | nil => rfl
  | cons b tl2 => simpa [endsInStop] using h

theorem intervalSumAux_eq (l : List (Option Nat × Int)) :
    endsInStop l = true → ∀ acc : Option Int,
      intervalSumAux acc l = pendingSpan acc l + windowsSum l := by
  induction l with
  | nil =>
      intro _ acc
      cases acc <;> simp [intervalSumAux, pendingSpan]
  | cons hd tl ih =>
      intro hstop acc
      obtain ⟨x, t⟩ := hd
      have hstop' : endsInStop tl = true := endsInStop_tail hstop
      cases x with
      | none =>
          have htl := ih hstop'
          cases tl with
          | nil =>
              cases acc <;> simp [intervalSumAux, pendingSpan]
          | cons b tl2 =>
              cases acc with
              | none =>
                  have := htl none
                  simp [intervalSumAux, pendingSpan, this]
              | some s =>
                  have := htl none
                  simp [intervalSumAux, pendingSpan, this]
      | some i =>
          cases tl with
          | nil =>
              simp [endsInStop, lastO] at hstop
          | cons b tl2 =>
              obtain ⟨y, u⟩ := b
              cases acc with
              | none =>
                  have := ih hstop' (some t)
                  simp [intervalSumAux, this, pendingSpan]
              | some s =>
                  have := ih hstop' (some s)
                  simp [intervalSumAux, this, pendingSpan]
                  all_goals ring

/-- C1: for every event sequence ending in a stop marker the duration
reduction succeeds with the pairwise window sum, that sum equals the
total of the maximal Working intervals (so interleaved idle gaps
contribute nothing), and the empty sequence yields a zero duration. -/
theorem work_times_to_duration_closed_day :
    (∀ l : List (Option Nat × Int), endsInStop l = true →
        work_times_to_duration l = Except.ok (windowsSum l) ∧
        windowsSum l = maximalIntervalSum l) ∧
    work_times_to_duration [] = Except.ok 0 := by
  constructor
  · intro l hl
    constructor
    · unfold work_times_to_duration
      cases h : lastO l with
      | none =>
          have hnil : l = [] := lastO_eq_none h
          subst hnil
          simp
      | some p =>
          have hp : p.1.isNone = true := by
            unfold endsInStop at hl
            rw [h] at hl
            exact hl
          have hps : p.1.isSome = false := by
            cases hv : p.1 <;> simp_all
          simp [hps]
    · have := intervalSumAux_eq l hl none
      simp [pendingSpan] at this
      · rw [maximalIntervalSum, this]
  · rfl

/-- Witness for C1 at the scenario of one working interval from 09:00
to 10:00 on day 0. -/
theorem work_times_to_duration_closed_day_witness :
    endsInStop [(some 1, 32400), (none, 36000)] = true ∧
    work_times_to_duration [(some 1, 32400), (none, 36000)] =
      Except.ok (windowsSum [(some 1, 32400), (none, 36000)]) ∧
    windowsSum [(some 1, 32400), (none, 36000)] =
      maximalIntervalSum [(some 1, 32400), (none, 36000)] :=
  ⟨by decide,
   work_times_to_duration_closed_day.1 [(some 1, 32400), (none, 36000)]
     (by decide)⟩

/-- C2: a non-empty sequence whose final event still carries a work
item fails with Inconsistent tagged with the calendar date of that
final event, and returns no duration. -/
theorem work_times_to_duration_inconsistent :
    ∀ (l : List (Option Nat × Int)) (it : Nat) (t : Int),
      lastO l = some (some it, t) →
      work_times_to_duration l =
        Except.error (Error.Inconsistent (dateNaive t)) := by
  intro l it t h
  unfold work_times_to_duration
  rw [h]
  simp

/-- Witness for C2 at the scenario of a single 09:00 start on day 0
with no closing stop marker. -/
theorem work_times_to_duration_inconsistent_witness :
    work_times_to_duration [(some 1, 32400)] =
      Except.error (Error.Inconsistent (dateNaive 32400)) :=
  work_times_to_duration_inconsistent [(some 1, 32400)] 1 32400 (by decide)

@[simp] theorem lookupA_setA_same (l : List (Int × Int)) (k v : Int) :
    lookupA (setA l k v) k = some v := by
  induction l with
  | nil => simp [setA, lookupA]
  | cons p rest ih =>
      obtain ⟨k0, v0⟩ := p
      by_cases h : k = k0
      · simp [setA, h, lookupA]
      · simp [setA, h, lookupA, ih]

theorem lookupA_setA_ne (l : List (Int × Int)) (k v k2 : Int)
    (h : k2 ≠ k) : lookupA (setA l k v) k2 = lookupA l k2 := by
  induction l with
  | nil => simp [setA, lookupA, h]
  | cons p rest ih =>
      obtain ⟨k0, v0⟩ := p
      by_cases hk : k = k0
      · subst hk
        simp [setA, lookupA, h]
      · by_cases hk2 : k2 = k0
        · simp [setA, hk, lookupA, hk2]
        · simp [setA, hk, lookupA, hk2, ih]

/-- Database::get_kv: read of a raw string value from the key/value
table, absent keys yielding none. -/
def get_kv (s : DbState) (key : String) : Option String :=
  lookupS s.kv key

/-- Modelled from the spec: the generic numeric key/value read
(getConfig) used by the accounting engine, whose Database variant is
not under src.  A missing key is a store error and a stored value that
fails to parse as an integer is the invalid-configuration error. -/
def get_kv_i64 (s : DbState) (key : String) : Except Error Int :=
  match get_kv s key with
  | none => Except.error (Error.DbError DbError.queryReturnedNoRows)
  | some v =>
      match parseI64 v with
      | some n => Except.ok n
      | none => Except.error Error.InvalidValue

/-- business_logic::get_default_time: the default quota resolution.
Saturdays, Sundays and dates satisfying the external holiday predicate
resolve to zero; every other date resolves to the stored default_time
configuration value. -/
def get_default_time (s : DbState) (date : Int) : Except Error Int :=
  if isWeekend date then Except.ok 0
  else if s.isHoliday date then Except.ok 0
  else get_kv_i64 s "default_time"

/-- Modelled from the spec: getExpectedTime, the read side of the
expected-time ledger (the Database variant carrying it is not under
src).  The stored seconds for the date, if any. -/
def get_expected_work (s : DbState) (date : Int) : Option Int :=
  lookupA s.expected date

/-- Modelled from the spec: setExpectedTime, the upsert into the
expected-time ledger, update-in-place by date. -/
def set_expected_time (s : DbState) (date : Int) (seconds : Int) :
    DbState :=
  { s with expected := setA s.expected date seconds }

/-- business_logic::get_expected_work_or_insert_default: the
expected-quota resolution with backfill.  A stored entry is returned as
is; otherwise the default quota is computed, persisted, and returned.
The updated store state is threaded explicitly. -/
def get_expected_work_or_insert_default (s : DbState) (date : Int) :
    Except Error (Int × DbState) :=
  match get_expected_work s date with
  | some expected => Except.ok (expected, s)
  | none =>
      match get_default_time s date with
      | Except.error e => Except.error e
      | Except.ok time => Except.ok (time, set_expected_time s date time)

/-- C8: the default quota is zero on Saturdays, Sundays and holiday
dates, and the stored default_time configuration value otherwise. -/
theorem get_default_time_spec :
    ∀ (s : DbState) (d : Int),
      get_default_time s d =
        if isWeekend d || s.isHoliday d then Except.ok 0
        else get_kv_i64 s "default_time" := by
  intro s d
  unfold get_default_time
  cases hw : isWeekend d <;> cases hh : s.isHoliday d <;> simp [hw, hh]

/-- C7: after one successful expected-quota resolution for a date the
quota is durably stored, and a second call for the same date on any
state carrying that expected-time ledger returns the same value without
touching the store, regardless of how the default configuration, the
holiday predicate or the clock changed in between. -/
theorem get_expected_work_or_insert_default_idempotent :
    ∀ (s : DbState) (date : Int) (v : Int) (s2 : DbState),
      get_expected_work_or_insert_default s date = Except.ok (v, s2) →
      lookupA s2.expected date = some v ∧
      ∀ t : DbState, t.expected = s2.expected →
        get_expected_work_or_insert_default t date = Except.ok (v, t) := by
  intro s date v s2 h
  have hstored : lookupA s2.expected date = some v := by
    unfold get_expected_work_or_insert_default get_expected_work at h
    cases hl : lookupA s.expected date with
    | some w =>
        rw [hl] at h
        simp at h
        obtain ⟨hv, hs⟩ := h
        subst hv
        rw [← hs]
        exact hl
    | none =>
        rw [hl] at h
        cases hd : get_default_time s date with
        | error e => rw [hd] at h; simp at h
        | ok time =>
            rw [hd] at h
            simp at h
            obtain ⟨hv, hs⟩ := h
            subst hv
            rw [← hs]
            simp [set_expected_time]
  refine ⟨hstored, ?_⟩
  intro t ht
  unfold get_expected_work_or_insert_default get_expected_work
  rw [ht, hstored]

/-- Witness for C7: a first call on a weekday with no stored entry
persists the configured default of 3600 seconds, and a second call on a
state whose default_time configuration was changed to 7200 still
returns 3600. -/
theorem get_expected_work_or_insert_default_idempotent_witness :
    get_expected_work_or_insert_default
        ⟨[], [], setA [] 0 3600, [("default_time", "7200")], none,
          fun _ => false, 0⟩ 0 =
      Except.ok (3600,
        ⟨[], [], setA [] 0 3600, [("default_time", "7200")], none,
          fun _ => false, 0⟩) :=
  ((get_expected_work_or_insert_default_idempotent
      ⟨[], [], [], [("default_time", "3600")], none, fun _ => false, 0⟩
      0 3600
      ⟨[], [], setA [] 0 3600, [("default_time", "3600")], none,
        fun _ => false, 0⟩
      (by rfl)).2
    ⟨[], [], setA [] 0 3600, [("default_time", "7200")], none,
      fun _ => false, 0⟩
    (by rfl))

/-- The distinct local calendar dates that carry at least one session
event: the GROUP BY date(start) query of fix_missing_expected. -/
def sessionDates (s : DbState) : List Int :=
  (s.workTimes.map (fun p => dateNaive p.1)).dedup

/-- INSERT OR IGNORE into the expected_time table: a row for an already
present date is left untouched, otherwise the new row is added. -/
def insertOrIgnoreExpected (l : List (Int × Int)) (d seconds : Int) :
    List (Int × Int) :=
  match lookupA l d with
  | some _ => l
  | none => (d, seconds) :: l

/-- Database::fix_missing_expected: the expected-time backfill run at
store initialization.  The stored default_time value is parsed as an
integer, falling back to 666 when absent or unparseable, and a row with
that flat value is inserted (ignoring existing rows) for every date
that has session events and for the current date. -/
def fix_missing_expected (s : DbState) : DbState :=
  let default_time := ((get_kv s "default_time").bind parseI32).getD 666
  let filled :=
    (sessionDates s).foldl
      (fun acc d => insertOrIgnoreExpected acc d default_time) s.expected
  { s with
    expected :=
      insertOrIgnoreExpected filled (dateNaive s.now) default_time }

theorem lookupA_insertOrIgnore (l : List (Int × Int)) (d seconds k : Int) :
    lookupA (insertOrIgnoreExpected l d seconds) k =
      match lookupA l k with
      | some v => some v
      | none => if k = d then some seconds else none := by
  unfold insertOrIgnoreExpected
  cases hd : lookupA l d with
  | some w =>
      cases hk : lookupA l k with
      | some v => simp [hk]
      | none =>
          by_cases hkd : k = d
          · subst hkd
            rw [hd] at hk
            cases hk
          · simp [hk, hkd]
  | none =>
      cases hk : lookupA l k with
      | some v =>
          by_cases hkd : k = d
          · subst hkd
            rw [hd] at hk
            cases hk
          · simp [lookupA, hkd, hk]
      | none => simp [lookupA, hk]

theorem lookupA_foldl_insertOrIgnore (ds : List Int) :
    ∀ (l : List (Int × Int)) (seconds k : Int),
      lookupA (ds.foldl
          (fun acc d => insertOrIgnoreExpected acc d seconds) l) k =
        match lookupA l k with
        | some v => some v
        | none => if k ∈ ds then some seconds else none := by
  induction ds with
  | nil =>
      intro l seconds k
      simp
      cases lookupA l k <;> simp
  | cons d ds ih =>
      intro l seconds k
      rw [List.foldl_cons, ih]
      rw [lookupA_insertOrIgnore]
      cases hk : lookupA l k with
      | some v => simp
      | none =>
          by_cases hkd : k = d
          · subst hkd
            simp
          · simp [hkd, List.mem_cons]

/-- C9: after the backfill, a date keeps its already stored quota; a
date with session events, and the current date, receive the flat
parsed default_time value — 666 when the stored value is missing or
fails to parse — with no weekend or holiday adjustment; every other
date stays absent. -/
theorem fix_missing_expected_spec :
    ∀ (s : DbState) (d : Int),
      lookupA (fix_missing_expected s).expected d =
        match lookupA s.expected d with
        | some v => some v
        | none =>
            if d ∈ sessionDates s ∨ d = dateNaive s.now then
              some (((get_kv s "default_time").bind parseI32).getD 666)
            else none := by
  intro s d
  unfold fix_missing_expected
  simp only
  rw [lookupA_insertOrIgnore, lookupA_foldl_insertOrIgnore]
  cases hd : lookupA s.expected d with
  | some v => simp
  | none =>
      by_cases hmem : d ∈ sessionDates s
      · simp [hmem]
      · by_cases hnow : d = dateNaive s.now
        · subst hnow
          simp [hmem]
        · simp [hmem, hnow]

/-- Row with the greatest start timestamp, modelling ORDER BY start
DESC LIMIT 1 over a set of rows with unique start values. -/
def maxByStart : List (Int × Option Nat) → Option (Int × Option Nat)
  | [] => none
  | p :: rest =>
      match maxByStart rest with
      | none => some p
      | some q => if p.1 > q.1 then some p else some q

theorem maxByStart_ne_none (a : Int × Option Nat)
    (rest : List (Int × Option Nat)) : maxByStart (a :: rest) ≠ none := by
  unfold maxByStart
  cases maxByStart rest with
  | none => simp
  | some q => by_cases h : a.1 > q.1 <;> simp [h]

theorem maxByStart_le {l : List (Int × Option Nat)} {q : Int × Option Nat}
    (h : maxByStart l = some q) : ∀ p ∈ l, p.1 ≤ q.1 := by
  induction l generalizing q with
  | nil => intro p hp; cases hp
  | cons a rest ih =>
      intro p hp
      unfold maxByStart at h
      cases hm : maxByStart rest with
      | none =>
          rw [hm] at h
          simp at h
          subst h
          rcases List.mem_cons.mp hp with rfl | hp2
          · exact le_refl _
          · cases rest with
            | nil => cases hp2
            | cons b r2 => exact absurd hm (maxByStart_ne_none b r2)
      | some m =>
          rw [hm] at h
          by_cases hgt : a.1 > m.1
          · simp [hgt] at h
            subst h
            rcases List.mem_cons.mp hp with rfl | hp2
            · exact le_refl _
            · exact le_trans (ih hm p hp2) (le_of_lt hgt)
          · simp [hgt] at h
            subst h
            rcases List.mem_cons.mp hp with rfl | hp2
            · exact le_of_not_lt hgt
            · exact ih hm p hp2

theorem maxByStart_mem {l : List (Int × Option Nat)}
    {q : Int × Option Nat} (h : maxByStart l = some q) : q ∈ l := by
  induction l generalizing q with
  | nil => simp [maxByStart] at h
  | cons a rest ih =>
      unfold maxByStart at h
      cases hm : maxByStart rest with
      | none =>
          rw [hm] at h
          simp at h
          subst h
          exact List.mem_cons_self a rest
      | some m =>
          rw [hm] at h
          by_cases hgt : a.1 > m.1
          · simp [hgt] at h
            subst h
            exact List.mem_cons_self a rest
          · simp [hgt] at h
            subst h
            exact List.mem_cons_of_mem a (ih hm)

/-- The most recent session event on the given local calendar date:
ORDER BY start DESC LIMIT 1 over the rows whose local date matches. -/
def lastEventOnDate (s : DbState) (d : Int) : Option (Int × Option Nat) :=
  maxByStart (s.workTimes.filter (fun p => dateNaive p.1 == d))

/-- Plain INSERT into work_times: the unique constraint on the start
column makes an insert at an already present timestamp a constraint
violation. -/
def insertWorkTime (s : DbState) (start : Int) (item : Option Nat) :
    Except DbError DbState :=
  if s.workTimes.any (fun p => p.1 == start) then
    Except.error DbError.constraintViolation
  else
    Except.ok { s with workTimes := (start, item) :: s.workTimes }

/-- Database::add_work_end_at_shutdown, the recovery procedure: when
the stored shutdown instant lies on a strictly earlier local date than
the current instant and the most recent session event of that date
still carries a work item, a stop marker is inserted at the shutdown
instant; otherwise nothing happens. -/
def add_work_end_at_shutdown (s : DbState) : Except DbError DbState :=
  match s.kvShutdown with
  | none => Except.ok s
  | some ts =>
      if dateNaive s.now > dateNaive ts then
        match lastEventOnDate s (dateNaive ts) with
        | some (_, some _) => insertWorkTime s ts none
        | _ => Except.ok s
      else Except.ok s

/-- Database::create_default_entries, restricted to its effect on the
modelled state: the idempotent insertion of the Standup work item and
of the default_time configuration row (7*60*60 = 25200 seconds); the
CREATE TABLE statements have no counterpart in the model. -/
def create_default_entries (s : DbState) : DbState :=
  { s with
    workItems :=
      if s.workItems.contains "Standup" then s.workItems
      else s.workItems ++ ["Standup"],
    kv :=
      if (lookupS s.kv "default_time").isSome then s.kv
      else s.kv ++ [("default_time", "25200")] }

/-- Database::open without the storage-technology plumbing: schema and
default rows, then the recovery procedure, then the expected-time
backfill, propagating any store error. -/
def dbOpen (s : DbState) : Except DbError DbState :=
  match add_work_end_at_shutdown (create_default_entries s) with
  | Except.error e => Except.error e
  | Except.ok s2 => Except.ok (fix_missing_expected s2)

theorem add_work_end_eq (s : DbState) (ts : Int)
    (h : s.kvShutdown = some ts) :
    add_work_end_at_shutdown s =
      if dateNaive s.now > dateNaive ts then
        match lastEventOnDate s (dateNaive ts) with
        | some (_, some _) => insertWorkTime s ts none
        | _ => Except.ok s
      else Except.ok s := by
  unfold add_work_end_at_shutdown
  rw [h]

/-- A store state whose most recent session event on the shutdown date
starts exactly at the recorded shutdown instant while still carrying a
work item: shutdown at 36000 on day 0, current instant on day 1. -/
def recoveryClashState : DbState :=
  ⟨[], [(36000, some 1)], [], [], some 36000, fun _ => false, 90000⟩

/-- Counterexample to C4 as stated: this state satisfies every
hypothesis of the claim (stale shutdown on a prior date, most recent
event of that date carrying a work item), yet recovery does not insert
a synthetic stop event — the insert hits the uniqueness constraint on
the start column and fails. -/
theorem add_work_end_at_shutdown_claim_cex :
    recoveryClashState.kvShutdown = some 36000 ∧
    dateNaive recoveryClashState.now > dateNaive 36000 ∧
    lastEventOnDate recoveryClashState (dateNaive 36000) =
      some (36000, some 1) ∧
    add_work_end_at_shutdown recoveryClashState =
      Except.error DbError.constraintViolation :=
  ⟨rfl, by decide, by decide, rfl⟩

/-- C4 (amended): when additionally the most recent event of the
shutdown date starts strictly before the shutdown instant, recovery
inserts exactly one stop marker at the shutdown instant and a second
run is a no-op; when that day already ends in a stop marker, has no
sessions, or the shutdown date is not strictly past, nothing is
inserted. -/
theorem add_work_end_at_shutdown_amended :
    ∀ (s : DbState) (ts : Int), s.kvShutdown = some ts →
      ((dateNaive s.now > dateNaive ts →
          (∀ (t0 : Int) (i : Nat),
             lastEventOnDate s (dateNaive ts) = some (t0, some i) →
             t0 < ts →
             add_work_end_at_shutdown s =
               Except.ok
                 { s with workTimes := (ts, none) :: s.workTimes } ∧
             add_work_end_at_shutdown
                 { s with workTimes := (ts, none) :: s.workTimes } =
               Except.ok
                 { s with workTimes := (ts, none) :: s.workTimes }) ∧
          (∀ t0 : Int,
             lastEventOnDate s (dateNaive ts) = some (t0, none) →
             add_work_end_at_shutdown s = Except.ok s) ∧
          (lastEventOnDate s (dateNaive ts) = none →
             add_work_end_at_shutdown s = Except.ok s)) ∧
        (¬ dateNaive s.now > dateNaive ts →
          add_work_end_at_shutdown s = Except.ok s)) := by
  intro s ts hsh
  constructor
  · intro hdate
    refine ⟨?_, ?_, ?_⟩
    · intro t0 i hlast hlt
      have hlastm : maxByStart
          (s.workTimes.filter (fun p => dateNaive p.1 == dateNaive ts)) =
          some (t0, some i) := hlast
      have hany : s.workTimes.any (fun p => p.1 == ts) = false := by
        rw [List.any_eq_false]
        intro p hp hbeq
        have hpts : p.1 = ts := by simpa using hbeq
        have hpfil : p ∈ s.workTimes.filter
            (fun q => dateNaive q.1 == dateNaive ts) :=
          List.mem_filter.mpr ⟨hp, by simp [hpts]⟩
        have hle : p.1 ≤ t0 := maxByStart_le hlastm p hpfil
        omega
      have hstep : add_work_end_at_shutdown s = insertWorkTime s ts none := by
        rw [add_work_end_eq s ts hsh, if_pos hdate, hlast]
      have hins : insertWorkTime s ts none =
          Except.ok { s with workTimes := (ts, none) :: s.workTimes } := by
        unfold insertWorkTime
        rw [hany]
        rfl
      refine ⟨hstep.trans hins, ?_⟩
      have hfil : (((ts, (none : Option Nat)) :: s.workTimes).filter
            (fun p => dateNaive p.1 == dateNaive ts)) =
          (ts, none) :: s.workTimes.filter
            (fun p => dateNaive p.1 == dateNaive ts) := by
        rw [List.filter_cons_of_pos]
        simp
      have hlast2 : lastEventOnDate
          { s with workTimes := (ts, none) :: s.workTimes }
          (dateNaive ts) = some (ts, none) := by
        unfold lastEventOnDate
        show maxByStart (((ts, (none : Option Nat)) :: s.workTimes).filter
          (fun p => dateNaive p.1 == dateNaive ts)) = some (ts, none)
        rw [hfil]
        unfold maxByStart
        rw [hlastm]
        simp [hlt]
      have hsh2 : ({ s with workTimes := (ts, none) :: s.workTimes } :
          DbState).kvShutdown = some ts := hsh
      rw [add_work_end_eq _ ts hsh2]
      rw [show dateNaive ({ s with
            workTimes := (ts, none) :: s.workTimes } : DbState).now =
          dateNaive s.now from rfl]
      rw [if_pos hdate, hlast2]
    · intro t0 hlast
      rw [add_work_end_eq s ts hsh, if_pos hdate, hlast]
    · intro hlast
      rw [add_work_end_eq s ts hsh, if_pos hdate, hlast]
  · intro hdate
    rw [add_work_end_eq s ts hsh, if_neg hdate]

/-- A clean recovery scenario: shutdown at 50000 on day 0, one open
session started at 46800 on day 0, current instant on day 1. -/
def recoveryWitnessState : DbState :=
  ⟨[], [(46800, some 3)], [], [], some 50000, fun _ => false, 130000⟩

/-- Witness for the amended C4: recovery closes the open day with one
stop marker at 50000 and a second run changes nothing. -/
theorem add_work_end_at_shutdown_amended_witness :
    add_work_end_at_shutdown recoveryWitnessState =
      Except.ok { recoveryWitnessState with
        workTimes := (50000, none) :: recoveryWitnessState.workTimes } ∧
    add_work_end_at_shutdown
        { recoveryWitnessState with
          workTimes := (50000, none) :: recoveryWitnessState.workTimes } =
      Except.ok { recoveryWitnessState with
        workTimes := (50000, none) :: recoveryWitnessState.workTimes } :=
  ((add_work_end_at_shutdown_amended recoveryWitnessState 50000 rfl).1
      (by decide)).1 46800 3 (by decide) (by decide)

/-- C10: when the most recent event on the stale shutdown date starts
exactly at the shutdown instant and still carries a work item, the
recovery insert violates the uniqueness constraint on start, and open
propagates the store error instead of closing out the day. -/
theorem open_fails_on_equal_shutdown_timestamp :
    ∀ (s : DbState) (ts : Int) (i : Nat),
      s.kvShutdown = some ts →
      dateNaive s.now > dateNaive ts →
      lastEventOnDate s (dateNaive ts) = some (ts, some i) →
      add_work_end_at_shutdown s = Except.error DbError.constraintViolation ∧
      dbOpen s = Except.error DbError.constraintViolation := by
  intro s ts i hsh hdate hlast
  have hlastm : maxByStart
      (s.workTimes.filter (fun p => dateNaive p.1 == dateNaive ts)) =
      some (ts, some i) := hlast
  have hmem : ((ts, some i) : Int × Option Nat) ∈ s.workTimes :=
    (List.mem_filter.mp (maxByStart_mem hlastm)).1
  have key : ∀ u : DbState, u.kvShutdown = some ts → u.now = s.now →
      u.workTimes = s.workTimes →
      add_work_end_at_shutdown u = Except.error DbError.constraintViolation := by
    intro u hu hnow hwt
    have hlastu : lastEventOnDate u (dateNaive ts) = some (ts, some i) := by
      unfold lastEventOnDate
      rw [hwt]
      exact hlastm
    have hany : u.workTimes.any (fun p => p.1 == ts) = true := by
      rw [hwt]
      exact List.any_eq_true.mpr ⟨(ts, some i), hmem, by simp⟩
    rw [add_work_end_eq u ts hu]
    rw [show dateNaive u.now = dateNaive s.now from by rw [hnow]]
    rw [if_pos hdate, hlastu]
    unfold insertWorkTime
    rw [hany]
    rfl
  refine ⟨key s hsh rfl rfl, ?_⟩
  unfold dbOpen
  rw [key (create_default_entries s) hsh rfl rfl]

/-- A state exhibiting the C10 scenario: an open session started at
40000 on day 0 whose start coincides with the recorded shutdown
instant, current instant on day 1. -/
def openClashState : DbState :=
  ⟨[], [(40000, some 2)], [], [], some 40000, fun _ => false, 100000⟩

/-- Witness for C10 at the explicit clash state. -/
theorem open_fails_on_equal_shutdown_timestamp_witness :
    add_work_end_at_shutdown openClashState =
      Except.error DbError.constraintViolation ∧
    dbOpen openClashState = Except.error DbError.constraintViolation :=
  open_fails_on_equal_shutdown_timestamp openClashState 40000 2 rfl
    (by decide) (by decide)

/-- Insertion into a list sorted ascending by start timestamp. -/
def insertSorted (p : Int × Option Nat) :
    List (Int × Option Nat) → List (Int × Option Nat)
  | [] => [p]
  | q :: rest =>
      if p.1 ≤ q.1 then p :: q :: rest else q :: insertSorted p rest

/-- Ascending sort by start timestamp, modelling ORDER BY start ASC. -/
def sortByStart : List (Int × Option Nat) → List (Int × Option Nat)
  | [] => []
  | p :: rest => insertSorted p (sortByStart rest)

theorem mem_insertSorted {a p : Int × Option Nat}
    {l : List (Int × Option Nat)} :
    a ∈ insertSorted p l ↔ a = p ∨ a ∈ l := by
  induction l with
  | nil => simp [insertSorted]
  | cons q rest ih =>
      unfold insertSorted
      by_cases h : p.1 ≤ q.1
      · simp [h, List.mem_cons]
      · simp [h, List.mem_cons, ih]
        tauto

theorem mem_sortByStart {a : Int × Option Nat}
    {l : List (Int × Option Nat)} : a ∈ sortByStart l ↔ a ∈ l := by
  induction l with
  | nil => simp [sortByStart]
  | cons q rest ih =>
      unfold sortByStart
      rw [mem_insertSorted]
      simp [List.mem_cons, ih]

/-- Modelled from the spec: sessionsOnDate, the Database accessor used
by the per-day ledger (its Database variant is not under src): all
session events of the given local calendar date as (work_item, start)
pairs ordered ascending by start. -/
def get_work_on_date (s : DbState) (d : Int) : List (Option Nat × Int) :=
  (sortByStart (s.workTimes.filter (fun p => dateNaive p.1 == d))).map
    (fun p => (p.2, p.1))

/-- Smallest start timestamp in the session log. -/
def firstStart : List (Int × Option Nat) → Option Int
  | [] => none
  | p :: rest =>
      match firstStart rest with
      | none => some p.1
      | some m => some (min p.1 m)

/-- Modelled from the spec: earliestSessionDate, the Database accessor
returning the local calendar date of the very first recorded session,
or none when the log is empty. -/
def get_start_day (s : DbState) : Option Int :=
  (firstStart s.workTimes).map dateNaive

/-- The dates yielded by the DateRange iterator: the half-open interval
from start (inclusive) to stop (exclusive), one day at a time.  The
Rust iterator never terminates when start exceeds stop; the model is
total and yields the empty list there, and every theorem touching it
assumes the in-range case. -/
def dateRange (start stop : Int) : List Int :=
  (List.range (stop - start).toNat).map (fun (k : Nat) => start + (k : Int))

/-- One entry of the per-day ledger: the duration outcome of the day
(possibly an Inconsistent failure, carried per entry) and the expected
quota. -/
structure WorkdayTime where
  work_done : Except Error Int
  expected : Int
  deriving Repr

/-- The loop body of get_work_time_by_day over the list of dates,
threading the store state through the expected-time backfill and
collecting one ledger entry per date in order. -/
def gwtbdGo : List Int → DbState →
    Except Error (List (Int × WorkdayTime) × DbState)
  | [], st => Except.ok ([], st)
  | d :: ds, st =>
      match get_expected_work_or_insert_default st d with
      | Except.error e => Except.error e
      | Except.ok (expected, st2) =>
          match gwtbdGo ds st2 with
          | Except.error e => Except.error e
          | Except.ok (rest, st3) =>
              Except.ok
                ((d, ⟨work_times_to_duration (get_work_on_date st d),
                      expected⟩) :: rest, st3)

/-- business_logic::get_work_time_by_day: the per-day ledger.  When the
log is empty the mapping is empty; otherwise one entry is produced for
every date from the earliest session date up to but excluding the
current date.  The map is modelled as an association list in date
order; the HashMap of the source carries the same key/value pairs with
unspecified iteration order. -/
def get_work_time_by_day (s : DbState) :
    Except Error (List (Int × WorkdayTime) × DbState) :=
  match get_start_day s with
  | none => Except.ok ([], s)
  | some start_day => gwtbdGo (dateRange start_day (dateNaive s.now)) s

/-- The summation loop of time_diff over ledger entries in a given
enumeration order: the first entry carrying a failed duration aborts
the whole computation with that failure. -/
def time_diff_over : List (Int × WorkdayTime) → Int → Except Error Int
  | [], acc => Except.ok acc
  | (_, wt) :: rest, acc =>
      match wt.work_done with
      | Except.error e => Except.error e
      | Except.ok work => time_diff_over rest (acc + work - wt.expected)

/-- business_logic::time_diff: the net time diff over the per-day
ledger.  The source iterates a HashMap whose enumeration order is
unspecified; the model folds the entries in date order, and the
order-sensitivity of the result is analysed through time_diff_over
applied to permutations of the entries. -/
def time_diff (s : DbState) : Except Error Int :=
  match get_work_time_by_day s with
  | Except.error e => Except.error e
  | Except.ok (times, _) => time_diff_over times 0

/-- The event loop of Database::get_time_diff: the carried timestamp is
the start of the most recent event carrying a work item, and every
event seen while a timestamp is carried adds its distance to that
timestamp; the carried value is never cleared by a stop marker. -/
def gtdLoop : Option Int → Int → List (Option Nat × Int) → Int
  | _, total, [] => total
  | current, total, (item, start) :: rest =>
      let total2 :=
        match current with
        | some c => total + (start - c)
        | none => total
      let current2 := if item.isSome then some start else current
      gtdLoop current2 total2 rest

/-- Database::get_time_diff: the single-pass stream variant of the net
time diff.  The account_start baseline (zero when absent or
unparseable) plus the loop total over all events strictly before the
current date, minus the sum of expected seconds over ledger rows
strictly before the current date. -/
def get_time_diff (s : DbState) : Except DbError Int :=
  let total0 := ((get_kv s "account_start").bind parseI64).getD 0
  let expected := s.expected.foldl
    (fun acc p => if p.1 < dateNaive s.now then acc + p.2 else acc) 0
  let evs := (sortByStart (s.workTimes.filter
      (fun p => decide (dateNaive p.1 < dateNaive s.now)))).map
    (fun p => (p.2, p.1))
  Except.ok (gtdLoop none total0 evs - expected)

theorem get_work_on_date_congr {s st : DbState} (d : Int)
    (hw : st.workTimes = s.workTimes) :
    get_work_on_date st d = get_work_on_date s d := by
  unfold get_work_on_date
  rw [hw]

theorem get_default_time_congr {s st : DbState} (d : Int)
    (hkv : st.kv = s.kv) (hhol : st.isHoliday = s.isHoliday) :
    get_default_time st d = get_default_time s d := by
  unfold get_default_time get_kv_i64 get_kv
  rw [hkv, hhol]

theorem geoid_congr (s st : DbState) (d : Int)
    (hkv : st.kv = s.kv) (hhol : st.isHoliday = s.isHoliday)
    (hexp : lookupA st.expected d = lookupA s.expected d) :
    ∀ (v : Int) (st2 : DbState),
      get_expected_work_or_insert_default st d = Except.ok (v, st2) →
      (∃ s3, get_expected_work_or_insert_default s d =
          Except.ok (v, s3)) ∧
      st2.workTimes = st.workTimes ∧ st2.kv = st.kv ∧
      st2.isHoliday = st.isHoliday ∧ st2.now = st.now ∧
      ∀ d2, d2 ≠ d → lookupA st2.expected d2 = lookupA st.expected d2 := by
  intro v st2 h
  unfold get_expected_work_or_insert_default get_expected_work at h ⊢
  cases hl : lookupA st.expected d with
  | some w =>
      rw [hl] at h
      simp at h
      obtain ⟨hv, hst⟩ := h
      have hls : lookupA s.expected d = some v := by rw [← hexp, hl, hv]
      rw [hls]
      subst hst
      exact ⟨⟨s, rfl⟩, rfl, rfl, rfl, rfl, fun _ _ => rfl⟩
  | none =>
      rw [hl] at h
      cases hd : get_default_time st d with
      | error e => rw [hd] at h; cases h
      | ok time =>
          rw [hd] at h
          simp at h
          obtain ⟨hv, hst⟩ := h
          have hls : lookupA s.expected d = none := by rw [← hexp, hl]
          rw [hls]
          rw [get_default_time_congr d hkv hhol] at hd
          rw [hd]
          refine ⟨⟨set_expected_time s d time, by rw [hv]⟩, ?_⟩
          rw [← hst]
          refine ⟨rfl, rfl, rfl, rfl, ?_⟩
          intro d2 hd2
          exact lookupA_setA_ne _ _ _ _ hd2

theorem dateRange_nodup (lo hi : Int) : (dateRange lo hi).Nodup := by
  unfold dateRange
  refine List.Nodup.map ?_ (List.nodup_range _)
  intro x y hxy
  have hxy2 : lo + (x : Int) = lo + (y : Int) := hxy
  omega

theorem gwtbdGo_spec (s : DbState) :
    ∀ ds : List Int, ds.Nodup → ∀ st : DbState,
      st.workTimes = s.workTimes → st.kv = s.kv →
      st.isHoliday = s.isHoliday →
      (∀ d ∈ ds, lookupA st.expected d = lookupA s.expected d) →
      ∀ (es : List (Int × WorkdayTime)) (st2 : DbState),
        gwtbdGo ds st = Except.ok (es, st2) →
        es.map Prod.fst = ds ∧
        ∀ (d : Int) (wt : WorkdayTime), (d, wt) ∈ es →
          wt.work_done = work_times_to_duration (get_work_on_date s d) ∧
          ∃ s3, get_expected_work_or_insert_default s d =
            Except.ok (wt.expected, s3) := by
  intro ds
  induction ds with
  | nil =>
      intro _ st hw hk hh hexp es st2 h
      unfold gwtbdGo at h
      simp at h
      obtain ⟨hes, _⟩ := h
      subst hes
      exact ⟨rfl, fun d wt hmem => absurd hmem (List.not_mem_nil _)⟩
  | cons d ds ih =>
      intro hnd st hw hk hh hexp es st2 h
      unfold gwtbdGo at h
      split at h
      next e heq => cases h
      next expected stMid heq =>
        split at h
        next e2 heq2 => cases h
        next rest st3 heq2 =>
          simp at h
          obtain ⟨hes, hst⟩ := h
          obtain ⟨hc1, hwMid, hkMid, hhMid, _, hlookMid⟩ :=
            geoid_congr s st d hk hh (hexp d (List.mem_cons_self d ds))
              expected stMid heq
          have hnd2 : ds.Nodup := (List.nodup_cons.mp hnd).2
          have hdnotin : d ∉ ds := (List.nodup_cons.mp hnd).1
          have hexp2 : ∀ d2 ∈ ds,
              lookupA stMid.expected d2 = lookupA s.expected d2 := by
            intro d2 hd2
            rw [hlookMid d2 (fun hc => hdnotin (hc ▸ hd2))]
            exact hexp d2 (List.mem_cons_of_mem d hd2)
          obtain ⟨hmap, hall⟩ :=
            ih hnd2 stMid (hwMid.trans hw) (hkMid.trans hk)
              (hhMid.trans hh) hexp2 rest st3 heq2
          subst hes
          constructor
          · simp [hmap]
          · intro d0 wt hmem
            rcases List.mem_cons.mp hmem with heq3 | hmem2
            · have hd0 : d0 = d := congrArg Prod.fst heq3
              have hwt : wt =
                  ⟨work_times_to_duration (get_work_on_date st d),
                    expected⟩ := congrArg Prod.snd heq3
              subst hd0
              rw [hwt]
              refine ⟨?_, hc1⟩
              show work_times_to_duration (get_work_on_date st d0) = _
              rw [get_work_on_date_congr d0 hw]
            · exact hall d0 wt hmem2

/-- C5: the per-day ledger is empty when the session log is empty, and
otherwise carries exactly one entry per date of the half-open range
from the earliest session date up to but excluding the current date,
each entry pairing the duration reduction of the events of that day —
failures carried per entry — with the expected-or-default quota as
resolved against the initial store state. -/
theorem get_work_time_by_day_spec :
    (∀ s : DbState, s.workTimes = [] →
        get_work_time_by_day s = Except.ok ([], s)) ∧
    (∀ (s : DbState) (start_day : Int) (es : List (Int × WorkdayTime))
        (s2 : DbState),
      get_start_day s = some start_day →
      start_day ≤ dateNaive s.now →
      get_work_time_by_day s = Except.ok (es, s2) →
      es.map Prod.fst = dateRange start_day (dateNaive s.now) ∧
      ∀ (d : Int) (wt : WorkdayTime), (d, wt) ∈ es →
        wt.work_done = work_times_to_duration (get_work_on_date s d) ∧
        ∃ s3, get_expected_work_or_insert_default s d =
          Except.ok (wt.expected, s3)) := by
  constructor
  · intro s hw
    unfold get_work_time_by_day get_start_day
    rw [hw]
    rfl
  · intro s start_day es s2 hstart _ h
    unfold get_work_time_by_day at h
    rw [hstart] at h
    exact gwtbdGo_spec s (dateRange start_day (dateNaive s.now))
      (dateRange_nodup _ _) s rfl rfl rfl (fun _ _ => rfl) es s2 h

/-- An empty store used by the C5 witness. -/
def ledgerEmptyState : DbState :=
  ⟨[], [], [], [], none, fun _ => false, 0⟩

/-- One closed day of one worked hour with a stored quota, current
instant on the next day: the C5 witness scenario. -/
def ledgerWitnessState : DbState :=
  ⟨[], [(32400, some 1), (36000, none)], [(0, 3600)], [], none,
    fun _ => false, 90000⟩

/-- Witness for C5: the empty log yields the empty ledger, and the
one-day scenario yields exactly the single date of the range. -/
theorem get_work_time_by_day_spec_witness :
    get_work_time_by_day ledgerEmptyState =
      Except.ok ([], ledgerEmptyState) ∧
    ([(0, (⟨Except.ok 3600, 3600⟩ : WorkdayTime))].map Prod.fst =
      dateRange 0 (dateNaive ledgerWitnessState.now)) :=
  ⟨get_work_time_by_day_spec.1 ledgerEmptyState rfl,
   (get_work_time_by_day_spec.2 ledgerWitnessState 0
      [(0, ⟨Except.ok 3600, 3600⟩)] ledgerWitnessState rfl (by decide)
      rfl).1⟩

/-- Whether a duration outcome is a success. -/
def isOkE : Except Error Int → Bool
  | Except.ok _ => true
  | Except.error _ => false

/-- Value of a successful duration outcome, zero on failure. -/
def exVal : Except Error Int → Int
  | Except.ok w => w
  | Except.error _ => 0

/-- The net total of a ledger: sum of (worked − expected) over its
entries. -/
def netList (es : List (Int × WorkdayTime)) : Int :=
  (es.map (fun p => exVal p.2.work_done - p.2.expected)).sum

theorem time_diff_over_ok (es : List (Int × WorkdayTime)) :
    ∀ acc : Int, (∀ p ∈ es, isOkE p.2.work_done = true) →
      time_diff_over es acc = Except.ok (acc + netList es) := by
  induction es with
  | nil => intro acc _; simp [time_diff_over, netList]
  | cons q rest ih =>
      intro acc hall
      obtain ⟨d, wt⟩ := q
      have hok := hall (d, wt) (List.mem_cons_self _ _)
      cases hw : wt.work_done with
      | error e => rw [hw] at hok; simp [isOkE] at hok
      | ok w =>
          unfold time_diff_over
          rw [hw]
          show time_diff_over rest (acc + w - wt.expected) =
            Except.ok (acc + netList ((d, wt) :: rest))
          rw [ih _ (fun p hp => hall p (List.mem_cons_of_mem _ hp))]
          unfold netList
          simp [hw, exVal]
          ring

theorem time_diff_over_error (es : List (Int × WorkdayTime)) :
    ∀ acc : Int, (∃ p ∈ es, isOkE p.2.work_done = false) →
      ∃ e, time_diff_over es acc = Except.error e ∧
        ∃ p ∈ es, p.2.work_done = Except.error e := by
  induction es with
  | nil => intro acc h; obtain ⟨p, hp, _⟩ := h; cases hp
  | cons q rest ih =>
      intro acc h
      obtain ⟨d, wt⟩ := q
      cases hw : wt.work_done with
      | error e =>
          refine ⟨e, ?_, ⟨(d, wt), List.mem_cons_self _ _, hw⟩⟩
          unfold time_diff_over
          rw [hw]
      | ok w =>
          have hrest : ∃ p ∈ rest, isOkE p.2.work_done = false := by
            obtain ⟨p, hp, hpf⟩ := h
            rcases List.mem_cons.mp hp with heq | hm
            · exfalso
              have : isOkE wt.work_done = false := by
                rw [show wt = p.2 from by rw [heq]]
                exact hpf
              rw [hw] at this
              simp [isOkE] at this
            · exact ⟨p, hm, hpf⟩
          obtain ⟨e, he, p, hp, hpe⟩ :=
            ih (acc + w - wt.expected) hrest
          refine ⟨e, ?_, ⟨p, List.mem_cons_of_mem _ hp, hpe⟩⟩
          unfold time_diff_over
          rw [hw]
          exact he

theorem wttd_on_date (s : DbState) (d : Int) :
    isOkE (work_times_to_duration (get_work_on_date s d)) = true ∨
    work_times_to_duration (get_work_on_date s d) =
      Except.error (Error.Inconsistent d) := by
  unfold work_times_to_duration
  cases hl : lastO (get_work_on_date s d) with
  | none => left; rfl
  | some last =>
      cases hli : last.1 with
      | none => left; simp [hli, isOkE]
      | some i =>
          right
          simp [hli]
          have hmem := lastO_mem hl
          unfold get_work_on_date at hmem
          obtain ⟨p, hps, hpe⟩ := List.mem_map.mp hmem
          have hpf : p ∈ s.workTimes.filter (fun q => dateNaive q.1 == d) :=
            mem_sortByStart.mp hps
          have hdate : dateNaive p.1 = d := by
            have h2 := (List.mem_filter.mp hpf).2
            simpa using h2
          have hlast2 : last.2 = p.1 := by rw [← hpe]
          rw [hlast2, hdate]

/-- C6 (amended): over any enumeration order of the per-day ledger —
the source iterates a HashMap whose order is unspecified — the net
time diff sums (worked − expected) over all days when every day is
consistent, independently of the order; when some day is inconsistent
it fails with the Inconsistent error of one of the inconsistent days,
namely the first one in that enumeration order, which need not be the
earliest date. -/
theorem time_diff_amended :
    ∀ (s : DbState) (es : List (Int × WorkdayTime)) (s2 : DbState)
      (es2 : List (Int × WorkdayTime)),
      get_work_time_by_day s = Except.ok (es, s2) →
      es2.Perm es →
      time_diff s = time_diff_over es 0 ∧
      ((∀ p ∈ es, isOkE p.2.work_done = true) →
        time_diff_over es2 0 = Except.ok (netList es)) ∧
      ((∃ p ∈ es, isOkE p.2.work_done = false) →
        ∃ d : Int,
          time_diff_over es2 0 = Except.error (Error.Inconsistent d) ∧
          ∃ wt : WorkdayTime, (d, wt) ∈ es ∧
            wt.work_done = Except.error (Error.Inconsistent d)) := by
  intro s es s2 es2 h hperm
  have htd : time_diff s = time_diff_over es 0 := by
    unfold time_diff
    rw [h]
  refine ⟨htd, ?_, ?_⟩
  · intro hall
    have hall2 : ∀ p ∈ es2, isOkE p.2.work_done = true :=
      fun p hp => hall p (hperm.subset hp)
    rw [time_diff_over_ok es2 0 hall2]
    have hnet : netList es2 = netList es := by
      unfold netList
      exact List.Perm.sum_eq (hperm.map _)
    rw [hnet]
    simp
  · intro hex
    have hex2 : ∃ p ∈ es2, isOkE p.2.work_done = false := by
      obtain ⟨p, hp, hpf⟩ := hex
      exact ⟨p, hperm.mem_iff.mpr hp, hpf⟩
    obtain ⟨e, he, p, hp, hpe⟩ := time_diff_over_error es2 0 hex2
    have hpes : p ∈ es := hperm.subset hp
    unfold get_work_time_by_day at h
    cases hsd : get_start_day s with
    | none =>
        rw [hsd] at h
        simp at h
        obtain ⟨hes, _⟩ := h
        rw [hes] at hpes
        cases hpes
    | some sd =>
        rw [hsd] at h
        obtain ⟨-, hall⟩ :=
          gwtbdGo_spec s (dateRange sd (dateNaive s.now))
            (dateRange_nodup _ _) s rfl rfl rfl (fun _ _ => rfl) es s2 h
        obtain ⟨d0, wt0⟩ := p
        obtain ⟨hwd, -⟩ := hall d0 wt0 hpes
        rcases wttd_on_date s d0 with hok | herr
        · exfalso
          rw [← hwd, hpe] at hok
          simp [isOkE] at hok
        · have hee : Except.error (ε := Error) (α := Int) e =
              Except.error (Error.Inconsistent d0) := by
            rw [← hpe, hwd, herr]
          have he2 : e = Error.Inconsistent d0 := by
            injection hee
          refine ⟨d0, ?_, wt0, hpes, ?_⟩
          · rw [he, he2]
          · rw [hpe, he2]

/-- A consistent one-day store used by the C6 witness: one worked hour
against a stored quota of two hours. -/
def consistentLedgerState : DbState :=
  ⟨[], [(32400, some 1), (36000, none)], [(0, 7200)], [], none,
    fun _ => false, 90000⟩

/-- The ledger of consistentLedgerState. -/
def consistentLedger : List (Int × WorkdayTime) :=
  [(0, ⟨Except.ok 3600, 7200⟩)]

/-- Witness for the amended C6: on the consistent scenario the net
diff is the order-independent sum of (worked − expected). -/
theorem time_diff_amended_witness :
    time_diff consistentLedgerState = time_diff_over consistentLedger 0 ∧
    time_diff_over consistentLedger 0 = Except.ok (netList consistentLedger) :=
  ⟨(time_diff_amended consistentLedgerState consistentLedger
      consistentLedgerState consistentLedger rfl
      (List.Perm.refl consistentLedger)).1,
   (time_diff_amended consistentLedgerState consistentLedger
      consistentLedgerState consistentLedger rfl
      (List.Perm.refl consistentLedger)).2.1 (by decide)⟩

/-- Two consecutive days, both left open (inconsistent), with stored
quotas, current instant on day 2. -/
def inconsistentTwoDayState : DbState :=
  ⟨[], [(32400, some 1), (118800, some 1)], [(0, 0), (1, 0)], [], none,
    fun _ => false, 176400⟩

/-- The ledger of inconsistentTwoDayState: day 0 and day 1 both carry
Inconsistent failures. -/
def inconsistentLedger : List (Int × WorkdayTime) :=
  [(0, ⟨Except.error (Error.Inconsistent 0), 0⟩),
   (1, ⟨Except.error (Error.Inconsistent 1), 0⟩)]

/-- Counterexample to C6 as stated: with two inconsistent days (0 the
earliest), folding the ledger in reversed enumeration order — one of
the orders a HashMap iteration may produce — returns the error of day
1, not of the earliest inconsistent date 0; only the date-order fold
happens to return day 0. -/
theorem time_diff_date_order_cex :
    get_work_time_by_day inconsistentTwoDayState =
      Except.ok (inconsistentLedger, inconsistentTwoDayState) ∧
    inconsistentLedger.reverse.Perm inconsistentLedger ∧
    time_diff_over inconsistentLedger 0 =
      Except.error (Error.Inconsistent 0) ∧
    time_diff_over inconsistentLedger.reverse 0 =
      Except.error (Error.Inconsistent 1) ∧
    Error.Inconsistent 1 ≠ Error.Inconsistent 0 :=
  ⟨rfl, List.reverse_perm inconsistentLedger, rfl, rfl, by decide⟩

/-- A consistent day with two separate working intervals (09:00–10:00
and 11:00–12:00), a stored quota of zero, no account_start baseline,
current instant on the next day. -/
def streamDivergenceState : DbState :=
  ⟨[], [(32400, some 1), (36000, none), (39600, some 1), (43200, none)],
    [(0, 0)], [], none, fun _ => false, 90000⟩

/-- C3 is refuted by the code: on a consistent store with two working
intervals in one day the per-day ledger variant returns 7200 seconds
while the single-pass stream variant returns 14400 seconds, because its
loop never clears the carried start timestamp at a stop marker and so
also counts the idle gap and re-counts time since the last start.  The
day is consistent (its duration reduction succeeds), and no
account_start baseline is involved. -/
theorem time_diff_variants_disagree :
    work_times_to_duration (get_work_on_date streamDivergenceState 0) =
      Except.ok 7200 ∧
    time_diff streamDivergenceState = Except.ok 7200 ∧
    get_time_diff streamDivergenceState = Except.ok 14400 ∧
    (7200 : Int) ≠ 14400 :=
  ⟨rfl, rfl, rfl, by decide⟩

end Timetrax
